import Mathlib

/-!
A shallow embedding, in Lean 4, of the track enrichment and harmonic-sort
engine of `src/main.rs` (MIX_SORTER).

Modelling conventions:
* Rust `String`/`&str` values are Lean `String`s, but all character-level
  work is done structurally on `String.data : List Char` so that every
  definition is executable and kernel-reducible.  Unicode-aware Rust
  operations (`to_lowercase`, `to_uppercase`, `char::is_numeric`, `trim`)
  are modelled by their ASCII cores, which agree with Rust on every input
  exercised here.
* Rust `f32` is modelled by `F32`: a rational number or NaN.  Signed zeros
  and infinities are not distinguished; `partial_cmp` returns `none`
  exactly when one operand is NaN, as in Rust.
* Rust `i32`/`i64` are modelled by `Int` (with the `i32::MAX` overflow
  bound made explicit where `str::parse::<i32>` can fail), `u32` by `Nat`.
* `Vec::sort_by` (a stable sort) is modelled by `List.mergeSort`, and the
  `HashMap<String, Vec<_>>` of `main` by an insertion-ordered association
  list; the unspecified iteration order of the `HashMap`'s values is
  modelled by quantifying over (or permuting) the flattened entry list.
-/

namespace MixSorter

/-- `rspotify::model::Modality` (only `Major`/`Minor` are produced here). -/
inductive Modality where
  | Major
  | Minor
deriving DecidableEq

/-- Model of Rust `f32`: a rational value or NaN. -/
inductive F32 where
  | nan
  | num (q : ℚ)
deriving DecidableEq

/-- Rust `f32 > 0.0` (false when the left operand is NaN). -/
def F32.gtZero : F32 → Bool
  | .nan => false
  | .num q => decide (0 < q)

/-- Rust `f32::partial_cmp`: `none` exactly when an operand is NaN. -/
def F32.pcmp : F32 → F32 → Option Ordering
  | .num a, .num b => some (if a < b then .lt else if a = b then .eq else .gt)
  | _, _ => none

/-- `TrackInfo` of `main.rs` (duration in milliseconds as `u32`). -/
structure TrackInfo where
  id : String
  name : String
  artist : String
  key : Int
  mode : Modality
  tempo : F32
  duration_ms : Nat
deriving DecidableEq

/-- `LocalTrackData` of `main.rs` (one reference dataset entry). -/
structure LocalTrackData where
  name : String
  artist : String
  bpm : F32
  key_camelot : String
  duration_ms : Option Nat
  album : Option String
deriving DecidableEq

/-! ### Character-level string helpers -/

/-- One single-character `str::replace` step (`from` and `to` are single
characters in every call `normalize` makes, so the replace is a map). -/
def substChar (a b c : Char) : Char := if c = a then b else c

/-- Rust `str::trim` on the character list (ASCII/Unicode whitespace;
`Char.isWhitespace` covers the whitespace appearing in this program). -/
def trimChars (l : List Char) : List Char :=
  ((l.dropWhile Char.isWhitespace).reverse.dropWhile Char.isWhitespace).reverse

/-- Rust `str::replace("  ", " ")`: one left-to-right pass replacing each
non-overlapping occurrence of two spaces by one. -/
def collapseDoubleSpace : List Char → List Char
  | [] => []
  | [c] => [c]
  | a :: b :: rest =>
    if a = ' ' ∧ b = ' ' then ' ' :: collapseDoubleSpace rest
    else a :: collapseDoubleSpace (b :: rest)

/-- `normalize` of `main.rs`: trim, lowercase, unify curly quotes and
backticks, turn hyphens into spaces, collapse double spaces (one pass). -/
def normalize (s : String) : String :=
  let l0 := (trimChars s.data).map Char.toLower
  let l1 := l0.map (substChar '’' '\'')
  let l2 := l1.map (substChar '\x60' '\'')
  let l3 := l2.map (substChar '“' '"')
  let l4 := l3.map (substChar '”' '"')
  let l5 := l4.map (substChar '-' ' ')
  ⟨collapseDoubleSpace l5⟩

/-- Rust `str::contains(&str)`: substring containment (`hay` contains
`needle`). -/
def strContains (hay needle : String) : Bool :=
  (List.range (hay.data.length + 1)).any fun i =>
    needle.data.isPrefixOf (hay.data.drop i)

/-- Rust `"…".parse::<i32>()` restricted to the strings it receives in
`camelot_to_spotify`, whose characters were filtered by `is_numeric`:
it succeeds exactly on nonempty all-ASCII-digit strings whose value fits
in an `i32`. -/
def parseI32 (s : String) : Option Int :=
  if s.data = [] then none
  else if s.data.all Char.isDigit then
    let n : Nat := s.data.foldl (fun acc c => acc * 10 + (c.toNat - '0'.toNat)) 0
    if n ≤ 2147483647 then some (n : Int) else none
  else none

/-- The 24-entry `(number, mode) → pitch class` match of
`camelot_to_spotify` (its `match (num, mode)` expression). -/
def camelotPitchTable (num : Int) (mode : Modality) : Option Int :=
  match num, mode with
  | 1, .Major => some 11 | 1, .Minor => some 8
  | 2, .Major => some 6  | 2, .Minor => some 3
  | 3, .Major => some 1  | 3, .Minor => some 10
  | 4, .Major => some 8  | 4, .Minor => some 5
  | 5, .Major => some 3  | 5, .Minor => some 0
  | 6, .Major => some 10 | 6, .Minor => some 7
  | 7, .Major => some 5  | 7, .Minor => some 2
  | 8, .Major => some 0  | 8, .Minor => some 9
  | 9, .Major => some 7  | 9, .Minor => some 4
  | 10, .Major => some 2 | 10, .Minor => some 11
  | 11, .Major => some 9 | 11, .Minor => some 6
  | 12, .Major => some 4 | 12, .Minor => some 1
  | _, _ => none

/-- `camelot_to_spotify` of `main.rs`: trim and uppercase, mode is Minor
iff the cleaned string contains `'A'`, collect the numeric characters,
parse them as `i32`, and look the pair up in the 24-entry table. -/
def camelot_to_spotify (camelot : String) : Option (Int × Modality) :=
  let clean : List Char := (trimChars camelot.data).map Char.toUpper
  let mode := if clean.contains 'A' then Modality.Minor else Modality.Major
  let num_str : String := ⟨clean.filter fun c => c.isDigit⟩
  match parseI32 num_str with
  | none => none
  | some num =>
    match camelotPitchTable num mode with
    | none => none
    | some pitch => some (pitch, mode)

/-- `get_sort_weight` of `main.rs`: the hand-written inverse table,
`num * 10 + (1 if major else 0)`, with sentinel `(99, false)` (weight
`990`) for pairs outside the 24-entry table. -/
def get_sort_weight (pitch : Int) (mode : Modality) : Int :=
  let p : Int × Bool :=
    match pitch, mode with
    | 11, .Major => (1, true)  | 8, .Minor => (1, false)
    | 6, .Major => (2, true)   | 3, .Minor => (2, false)
    | 1, .Major => (3, true)   | 10, .Minor => (3, false)
    | 8, .Major => (4, true)   | 5, .Minor => (4, false)
    | 3, .Major => (5, true)   | 0, .Minor => (5, false)
    | 10, .Major => (6, true)  | 7, .Minor => (6, false)
    | 5, .Major => (7, true)   | 2, .Minor => (7, false)
    | 0, .Major => (8, true)   | 9, .Minor => (8, false)
    | 7, .Major => (9, true)   | 4, .Minor => (9, false)
    | 2, .Major => (10, true)  | 11, .Minor => (10, false)
    | 9, .Major => (11, true)  | 6, .Minor => (11, false)
    | 4, .Major => (12, true)  | 1, .Minor => (12, false)
    | _, _ => (99, false)
  p.1 * 10 + if p.2 then 1 else 0

/-! ### TrackMatcher (`find_best_match`) -/

/-- The score the `find_best_match` loop body assigns to one candidate:
`none` when the candidate is skipped by the artist gate (`continue`),
otherwise the accumulated integer score. -/
def candidateScore (spotify_track : TrackInfo) (candidate : LocalTrackData) :
    Option Int :=
  let spot_artist_norm := normalize spotify_track.artist
  let db_artist_norm := normalize candidate.artist
  let base : Option Int :=
    if db_artist_norm = spot_artist_norm then some 100
    else if strContains db_artist_norm spot_artist_norm ||
        strContains spot_artist_norm db_artist_norm then some 80
    else none
  base.map fun s0 =>
    let s1 :=
      match candidate.duration_ms with
      | some db_dur =>
        if ((db_dur : Int) - (spotify_track.duration_ms : Int)).natAbs < 5000
        then s0 + 50 else s0 - 50
      | none => s0
    if normalize candidate.name = normalize spotify_track.name then s1 + 20
    else s1

/-- The `for candidate in candidates` loop of `find_best_match`, carrying
the `best_candidate` and `highest_score` mutable state. -/
def findBestAux (t : TrackInfo) :
    List LocalTrackData → Option LocalTrackData → Int → Option LocalTrackData
  | [], best, _ => best
  | c :: rest, best, highest =>
    match candidateScore t c with
    | none => findBestAux t rest best highest
    | some s =>
      if s > highest then findBestAux t rest (some c) s
      else findBestAux t rest best highest

/-- `find_best_match` of `main.rs` (the returned value is the clone of the
best candidate; cloning is identity in the model). -/
def find_best_match (t : TrackInfo) (candidates : List LocalTrackData) :
    Option LocalTrackData :=
  if candidates.isEmpty then none else findBestAux t candidates none 0

/-- Modelled from the spec (not from the code): the first element of the
list attaining the maximal value of `f`, used to state the tie-keeping
selection behaviour of `find_best_match` for comparison. -/
def selectFirstMax (f : LocalTrackData → Int) :
    List LocalTrackData → Option LocalTrackData
  | [] => none
  | x :: xs =>
    match selectFirstMax f xs with
    | none => some x
    | some y => if f y > f x then some y else some x

/-- Modelled from the spec (§4.4, not from the code): the per-candidate
score as the spec words it — an artist base of 100 (exact) or 80
(containment) or outright rejection, plus a duration bonus/penalty of
±50 only when the candidate has a known duration, plus 20 for an exact
normalized title.  Compared against the code-derived `candidateScore`. -/
def specCandidateScore (t : TrackInfo) (c : LocalTrackData) : Option Int :=
  let artistBase : Option Int :=
    if normalize c.artist = normalize t.artist then some 100
    else if strContains (normalize c.artist) (normalize t.artist) ||
        strContains (normalize t.artist) (normalize c.artist) then some 80
    else none
  let durationPts : Int :=
    match c.duration_ms with
    | some d => if ((d : Int) - (t.duration_ms : Int)).natAbs < 5000 then 50 else -50
    | none => 0
  let titlePts : Int :=
    if normalize c.name = normalize t.name then 20 else 0
  artistBase.map fun ab => ab + durationPts + titlePts

/-! ### ReferenceStore (`local_db` construction in `main`) -/

/-- `local_db.entry(key).or_default().push(entry)`: append `e` to the
bucket of `k`, creating the bucket when absent (association-list model of
the `HashMap`). -/
def dbInsert (db : List (String × List LocalTrackData)) (k : String)
    (e : LocalTrackData) : List (String × List LocalTrackData) :=
  match db with
  | [] => [(k, [e])]
  | (k', v) :: rest =>
    if k' = k then (k', v ++ [e]) :: rest else (k', v) :: dbInsert rest k e

/-- The `for entry in local_entries` loop of `main` that builds
`local_db`, bucketing each entry under its normalized title. -/
def buildDb (entries : List LocalTrackData) :
    List (String × List LocalTrackData) :=
  entries.foldl (fun db e => dbInsert db (normalize e.name) e) []

/-- `local_db.get(&title_key)` on the association-list model. -/
def lookupDb (db : List (String × List LocalTrackData)) (k : String) :
    Option (List LocalTrackData) :=
  (db.find? fun p => p.1 == k).map (·.2)

/-! ### EnrichmentPipeline (per-track body of the `for track` loop) -/

/-- The fuzzy-fallback candidate filter of `main`: entries of the
flattened list whose normalized title and the track's mutually contain
one another (either direction), and likewise for the artists. -/
def fuzzyCandidates (all_db_entries : List LocalTrackData)
    (track : TrackInfo) : List LocalTrackData :=
  all_db_entries.filter fun db_item =>
    let db_norm := normalize db_item.name
    let spot_norm := normalize track.name
    let title_match := strContains db_norm spot_norm ||
      strContains spot_norm db_norm
    let db_artist := normalize db_item.artist
    let spot_artist := normalize track.artist
    let artist_match := strContains db_artist spot_artist ||
      strContains spot_artist db_artist
    title_match && artist_match

/-- Steps 1–2 of the per-track enrichment body: direct lookup by
normalized title, then the fuzzy fallback only when that found nothing. -/
def enrichBestMatch (local_db : List (String × List LocalTrackData))
    (all_db_entries : List LocalTrackData) (track : TrackInfo) :
    Option LocalTrackData :=
  let title_key := normalize track.name
  let direct : Option LocalTrackData :=
    match lookupDb local_db title_key with
    | some candidates => find_best_match track candidates
    | none => none
  match direct with
  | some m => some m
  | none => find_best_match track (fuzzyCandidates all_db_entries track)

/-- The whole per-track enrichment body: on a match whose Camelot key
converts, write `tempo`, `key` and `mode` from the matched entry;
otherwise leave the track untouched. -/
def enrichTrack (local_db : List (String × List LocalTrackData))
    (all_db_entries : List LocalTrackData) (track : TrackInfo) : TrackInfo :=
  match enrichBestMatch local_db all_db_entries track with
  | some match_data =>
    match camelot_to_spotify match_data.key_camelot with
    | some (pitch, mode) =>
      { track with tempo := match_data.bpm, key := pitch, mode := mode }
    | none => track
  | none => track

/-! ### HarmonicSorter (partition and `sort_by` in `main`) -/

/-- The partition predicate of `main`: `t.key >= 0 && t.tempo > 0.0`. -/
def isResolved (t : TrackInfo) : Bool :=
  decide (0 ≤ t.key) && t.tempo.gtZero

/-- The `sort_by` comparator of `main`:
`a_weight.cmp(&b_weight).then(a.tempo.partial_cmp(&b.tempo).unwrap_or(Equal))`. -/
def cmpTracks (a b : TrackInfo) : Ordering :=
  let a_weight := get_sort_weight a.key a.mode
  let b_weight := get_sort_weight b.key b.mode
  (if a_weight < b_weight then Ordering.lt
   else if a_weight = b_weight then Ordering.eq
   else Ordering.gt).then ((F32.pcmp a.tempo b.tempo).getD Ordering.eq)

/-- The `≤` relation a stable comparator sort orders by: `cmp ≠ Greater`. -/
def trackLe (a b : TrackInfo) : Bool := decide (cmpTracks a b ≠ Ordering.gt)

/-- Lines 263–277 of `main.rs`: partition into tracks with and without
features (preserving order), stably sort the former by the comparator,
and append the latter. -/
def harmonicSort (tracks : List TrackInfo) : List TrackInfo :=
  let p := tracks.partition isResolved
  let with_features := p.1
  let without_features := p.2
  (with_features.mergeSort trackLe) ++ without_features

/-! ### Auxiliary definitions for the statements and proofs -/

/-- The 24 Camelot codes paired with their spec ordinal
`10 * number + (1 if the suffix is B/Major else 0)`. -/
def camelotOrdinals : List (String × Int) :=
  [("1A", 10), ("1B", 11), ("2A", 20), ("2B", 21), ("3A", 30), ("3B", 31),
   ("4A", 40), ("4B", 41), ("5A", 50), ("5B", 51), ("6A", 60), ("6B", 61),
   ("7A", 70), ("7B", 71), ("8A", 80), ("8B", 81), ("9A", 90), ("9B", 91),
   ("10A", 100), ("10B", 101), ("11A", 110), ("11B", 111),
   ("12A", 120), ("12B", 121)]

/-- The score of a candidate, defaulting to `0` for gate-rejected ones
(only applied to candidates that passed the gate). -/
def scoreOf (t : TrackInfo) (c : LocalTrackData) : Int :=
  (candidateScore t c).getD 0

/-- Keep the current best (first argument) unless the challenger scores
strictly higher; used to state the loop invariant of `findBestAux`. -/
def chooseBetter (f : LocalTrackData → Int) :
    Option LocalTrackData → Option LocalTrackData → Option LocalTrackData
  | b, none => b
  | none, some y => some y
  | some x, some y => if f y > f x then some y else some x

/-- Read a (non-NaN) tempo as a rational, mapping NaN to `0`; only used
on resolved tracks, whose tempos are never NaN. -/
def toQ : F32 → ℚ
  | .nan => 0
  | .num q => q

/-- A total, transitive companion of `trackLe` (lexicographic on weight,
then on `toQ` of the tempo).  It agrees with `trackLe` whenever neither
tempo is NaN — in particular on all resolved tracks. -/
def trackLeTotal (a b : TrackInfo) : Bool :=
  decide (get_sort_weight a.key a.mode < get_sort_weight b.key b.mode ∨
    (get_sort_weight a.key a.mode = get_sort_weight b.key b.mode ∧
      toQ a.tempo ≤ toQ b.tempo))

/-! ### Concrete inputs used by the witnesses and counterexamples -/

/-- §8 scenario track: `{name:"Song", artist:"Artist", duration_ms:201000}`. -/
def scenarioTrack : TrackInfo :=
  ⟨"", "Song", "Artist", -1, .Major, .num 0, 201000⟩

/-- §8 scenario reference entry. -/
def scenarioEntry : LocalTrackData :=
  ⟨"Song", "Artist", .num 120, "8A", some 200000, none⟩

/-- §8 second scenario track (`duration_ms:210000`, so Δ = 10000 ≥ 5000). -/
def scenarioTrack70 : TrackInfo :=
  ⟨"", "Song", "Artist", -1, .Major, .num 0, 210000⟩

/-- A resolved track (key 9 minor = Camelot 8A, weight 80, tempo 120). -/
def wRes1 : TrackInfo := ⟨"a", "t1", "x", 9, .Minor, .num 120, 0⟩

/-- A second resolved track with the same weight and tempo as `wRes1`. -/
def wRes2 : TrackInfo := ⟨"b", "t2", "y", 9, .Minor, .num 120, 0⟩

/-- An unresolved track (key `-1`, tempo `0`). -/
def wUnres : TrackInfo := ⟨"c", "t3", "z", -1, .Major, .num 0, 0⟩

/-- A bare playlist track `"song"` by `"artist"`. -/
def wTrackSong : TrackInfo := ⟨"", "song", "artist", -1, .Major, .num 0, 0⟩

/-- A reference entry matching `wTrackSong` but with an invalid Camelot
key. -/
def wBadKeyEntry : LocalTrackData :=
  ⟨"song", "artist", .num 100, "XX", none, none⟩

/-- A reference entry matching `wTrackSong` with a valid Camelot key. -/
def wEntry8 : LocalTrackData := ⟨"song", "artist", .num 100, "1A", none, none⟩

/-- A track whose normalized title (`"son"`) matches no bucket exactly. -/
def wTrackSon : TrackInfo := ⟨"", "son", "artist", -1, .Major, .num 0, 0⟩

/-- First fuzzy candidate for `wTrackSong`: title `"song a"`, key 1A. -/
def wFuzzyA : LocalTrackData := ⟨"song a", "artist", .num 100, "1A", none, none⟩

/-- Second fuzzy candidate for `wTrackSong`: title `"song b"`, key 2A. -/
def wFuzzyB : LocalTrackData := ⟨"song b", "artist", .num 101, "2A", none, none⟩

/-- A track whose artist is whitespace only, so it normalizes to `""`. -/
def wEmptyArtistTrack : TrackInfo := ⟨"", "y", "  ", -1, .Major, .num 0, 0⟩

/-- A reference entry whose artist is itself the empty string. -/
def wEmptyArtistEntry : LocalTrackData := ⟨"x", "", .num 1, "1A", none, none⟩

/-- A reference entry with an ordinary nonempty artist. -/
def wOtherArtistEntry : LocalTrackData := ⟨"x", "q", .num 1, "1A", none, none⟩

/-! ### Theorems -/

/-- C1: for every Camelot code `C` in `{1A..12B}`, composing the
Camelot-to-internal conversion with the sort-weight function yields `C`'s
ordinal `10 * number + (1 if B/Major else 0)`; in particular the two
hand-written 24-entry tables are mutually consistent inverses. -/
theorem camelot_weight_ordinal_consistent :
    camelotOrdinals.all (fun p =>
      match camelot_to_spotify p.1 with
      | some (pitch, mode) => get_sort_weight pitch mode == p.2
      | none => false) = true := by decide

theorem camelotPitchTable_none (n : Int) (m : Modality) (h : n < 1 ∨ 12 < n) :
    camelotPitchTable n m = none := by
  rcases n with k | k
  · rw [Int.ofNat_eq_coe] at h
    have hk : k = 0 ∨ 13 ≤ k := by omega
    rcases hk with rfl | hk
    · cases m <;> rfl
    · obtain ⟨j, rfl⟩ : ∃ j, k = j + 13 := ⟨k - 13, by omega⟩
      rfl
  · rfl

theorem camelotPitchTable_isSome (n : Int) (m : Modality) :
    (camelotPitchTable n m).isSome = true ↔ 1 ≤ n ∧ n ≤ 12 := by
  constructor
  · intro h
    by_contra hb
    rw [camelotPitchTable_none n m (by omega)] at h
    simp at h
  · rintro ⟨h1, h2⟩
    interval_cases n <;> cases m <;> rfl

/-- `camelot_to_spotify` as a composition of its three stages. -/
theorem camelot_to_spotify_eq (s : String) :
    camelot_to_spotify s =
      (parseI32 ⟨((trimChars s.data).map Char.toUpper).filter (fun c => c.isDigit)⟩).bind
        fun n =>
          (camelotPitchTable n
              (if ((trimChars s.data).map Char.toUpper).contains 'A' then Modality.Minor
               else Modality.Major)).map
            fun p =>
              (p,
                if ((trimChars s.data).map Char.toUpper).contains 'A' then Modality.Minor
                else Modality.Major) := by
  simp only [camelot_to_spotify]
  cases hp : parseI32 ⟨((trimChars s.data).map Char.toUpper).filter (fun c => c.isDigit)⟩ with
  | none => rfl
  | some n =>
    simp only [Option.some_bind]
    cases ht : camelotPitchTable n
        (if ((trimChars s.data).map Char.toUpper).contains 'A' then Modality.Minor
         else Modality.Major) with
    | none => simp
    | some p => simp

/-- C2 counterexample: the claim says the conversion fails whenever the
letter suffix is neither A nor B, or when the leading numeric token is
missing; but the code validates neither — `"5C"` (suffix `C`) converts as
Major, and `"A1"` (no leading numeric token) converts as Minor. -/
theorem camelot_suffix_not_validated :
    camelot_to_spotify "5C" = some (3, Modality.Major) ∧
    camelot_to_spotify "A1" = some (8, Modality.Minor) := by decide

/-- C2 (amended): `camelot_to_spotify` collects every numeric character
of the trimmed, uppercased input (not just a leading token), treats the
input as Minor iff it contains the letter `A` (a suffix other than A/B
does not cause failure), and returns no result exactly when the collected
digits fail to parse as an `i32` or the parsed number is outside 1–12;
in particular it fails on `"13A"`, `""` and `"XYZ"`. -/
theorem camelot_failure_characterization :
    (camelot_to_spotify "13A" = none ∧ camelot_to_spotify "" = none ∧
      camelot_to_spotify "XYZ" = none) ∧
    (∀ s : String, (camelot_to_spotify s).isSome = true ↔
      ∃ n : Int,
        parseI32 ⟨((trimChars s.data).map Char.toUpper).filter (fun c => c.isDigit)⟩ = some n ∧
        1 ≤ n ∧ n ≤ 12) ∧
    (∀ (s : String) (p : Int) (m : Modality), camelot_to_spotify s = some (p, m) →
      (m = Modality.Minor ↔ ((trimChars s.data).map Char.toUpper).contains 'A' = true)) := by
  refine ⟨by decide, ?_, ?_⟩
  · intro s
    rw [camelot_to_spotify_eq]
    cases hp : parseI32 ⟨((trimChars s.data).map Char.toUpper).filter (fun c => c.isDigit)⟩ with
    | none => simp
    | some n =>
      simp only [Option.some_bind, Option.isSome_map']
      rw [camelotPitchTable_isSome]
      constructor
      · exact fun h => ⟨n, rfl, h.1, h.2⟩
      · rintro ⟨n', hn', h1, h2⟩
        cases hn'
        exact ⟨h1, h2⟩
  · intro s p m h
    rw [camelot_to_spotify_eq] at h
    cases hp : parseI32 ⟨((trimChars s.data).map Char.toUpper).filter (fun c => c.isDigit)⟩ with
    | none => rw [hp] at h; simp at h
    | some n =>
      rw [hp] at h
      simp only [Option.some_bind, Option.map_eq_some'] at h
      obtain ⟨q, hq, hqm⟩ := h
      by_cases hc : ((trimChars s.data).map Char.toUpper).contains 'A' = true
      · simp only [if_pos hc] at hqm
        cases hqm
        exact Iff.intro (fun _ => hc) (fun _ => rfl)
      · simp only [if_neg hc] at hqm
        cases hqm
        exact Iff.intro (fun hmm => nomatch hmm) (fun hcc => absurd hcc hc)

theorem candidateScore_ge_30 (t : TrackInfo) (c : LocalTrackData) (s : Int)
    (h : candidateScore t c = some s) : 30 ≤ s := by
  unfold candidateScore at h
  dsimp only at h
  split_ifs at h <;>
    cases hd : c.duration_ms <;> rw [hd] at h <;> dsimp only [Option.map] at h <;>
    first
    | (split_ifs at h <;> (injection h with h; omega))
    | (injection h with h; omega)
    | exact absurd h (by simp)

theorem selectFirstMax_cons (f : LocalTrackData → Int) (x : LocalTrackData)
    (xs : List LocalTrackData) :
    selectFirstMax f (x :: xs) = chooseBetter f (some x) (selectFirstMax f xs) := by
  cases hs : selectFirstMax f xs
  · rw [selectFirstMax, hs]; rfl
  · rw [selectFirstMax, hs]; rfl

theorem chooseBetter_none_absorb (f : LocalTrackData → Int)
    (c : LocalTrackData) (r : Option LocalTrackData) :
    chooseBetter f (some c) r = chooseBetter f none (chooseBetter f (some c) r) := by
  cases r with
  | none => rfl
  | some y => dsimp only [chooseBetter]; split_ifs <;> rfl

theorem chooseBetter_absorb_lt (f : LocalTrackData → Int)
    (x c : LocalTrackData) (r : Option LocalTrackData) (h : f x < f c) :
    chooseBetter f (some c) r = chooseBetter f (some x) (chooseBetter f (some c) r) := by
  cases r with
  | none => dsimp only [chooseBetter]; rw [if_pos (by omega : f c > f x)]
  | some y =>
    by_cases hyc : f y > f c
    · have hyx : f y > f x := by omega
      simp [chooseBetter, hyc, hyx]
    · have hcx : f c > f x := by omega
      simp [chooseBetter, hyc, hcx]

theorem chooseBetter_absorb_le (f : LocalTrackData → Int)
    (x c : LocalTrackData) (r : Option LocalTrackData) (h : f c ≤ f x) :
    chooseBetter f (some x) r = chooseBetter f (some x) (chooseBetter f (some c) r) := by
  cases r with
  | none => dsimp only [chooseBetter]; rw [if_neg (by omega : ¬f c > f x)]
  | some y =>
    by_cases hyc : f y > f c
    · simp [chooseBetter, hyc]
    · have hyx : ¬f y > f x := by omega
      simp [chooseBetter, hyc, hyx]
      rw [if_neg (by omega : ¬f x < f c)]

theorem selectFirstMax_mem (f : LocalTrackData → Int) (l : List LocalTrackData) :
    ∀ y, selectFirstMax f l = some y → y ∈ l := by
  induction l with
  | nil => intro y h; simp [selectFirstMax] at h
  | cons x xs ih =>
    intro y h
    rw [selectFirstMax_cons] at h
    cases hs : selectFirstMax f xs with
    | none => rw [hs] at h; cases h; exact List.mem_cons_self _ _
    | some z =>
      rw [hs] at h
      dsimp only [chooseBetter] at h
      split_ifs at h <;> cases h
      · exact List.mem_cons_of_mem _ (ih _ hs)
      · exact List.mem_cons_self _ _

theorem selectFirstMax_isSome (f : LocalTrackData → Int)
    (l : List LocalTrackData) : (selectFirstMax f l).isSome = true ↔ l ≠ [] := by
  cases l with
  | nil => simp [selectFirstMax]
  | cons x xs =>
    rw [selectFirstMax_cons]
    cases hs : selectFirstMax f xs with
    | none => simp [chooseBetter]
    | some z => dsimp only [chooseBetter]; split_ifs <;> simp

theorem selectFirstMax_max (f : LocalTrackData → Int) (l : List LocalTrackData) :
    ∀ y, selectFirstMax f l = some y → ∀ x ∈ l, f x ≤ f y := by
  induction l with
  | nil => intro y h; simp [selectFirstMax] at h
  | cons x xs ih =>
    intro y h a ha
    rw [selectFirstMax_cons] at h
    cases hs : selectFirstMax f xs with
    | none =>
      rw [hs] at h; cases h
      rcases List.mem_cons.mp ha with rfl | ha'
      · exact le_refl _
      · exfalso
        have hne : xs ≠ [] := by intro hnil; rw [hnil] at ha'; simp at ha'
        have hS := (selectFirstMax_isSome f xs).mpr hne
        rw [hs] at hS
        simp at hS
    | some z =>
      rw [hs] at h
      dsimp only [chooseBetter] at h
      rcases List.mem_cons.mp ha with rfl | ha'
      · split_ifs at h with hzy <;> cases h <;> omega
      · have hz := ih z hs a ha'
        split_ifs at h with hzy <;> cases h <;> omega

theorem findBestAux_eq (t : TrackInfo) (cs : List LocalTrackData) :
    ∀ (b : Option LocalTrackData) (h : Int),
    (b = none → h = 0) → (∀ x, b = some x → candidateScore t x = some h) →
    findBestAux t cs b h =
      chooseBetter (scoreOf t) b
        (selectFirstMax (scoreOf t)
          (cs.filter fun c => (candidateScore t c).isSome)) := by
  induction cs with
  | nil => intro b h _ _; cases b <;> rfl
  | cons c rest ih =>
    intro b h hb0 hbs
    cases hsc : candidateScore t c with
    | none =>
      have hfilter : (c :: rest).filter (fun c => (candidateScore t c).isSome) =
          rest.filter fun c => (candidateScore t c).isSome := by
        simp [List.filter, hsc]
      rw [hfilter]
      unfold findBestAux
      rw [hsc]
      exact ih b h hb0 hbs
    | some s =>
      have hsge : 30 ≤ s := candidateScore_ge_30 t c s hsc
      have hfc : scoreOf t c = s := by simp [scoreOf, hsc]
      have hfilter : (c :: rest).filter (fun c => (candidateScore t c).isSome) =
          c :: rest.filter fun c => (candidateScore t c).isSome := by
        simp [List.filter, hsc]
      rw [hfilter, selectFirstMax_cons]
      unfold findBestAux
      rw [hsc]
      dsimp only
      cases b with
      | none =>
        have h0 : h = 0 := hb0 rfl
        rw [if_pos (by omega : s > h)]
        rw [ih (some c) s (by intro hh; cases hh) (by intro x hx; cases hx; exact hsc)]
        exact chooseBetter_none_absorb _ _ _
      | some x =>
        have hx : candidateScore t x = some h := hbs x rfl
        have hfx : scoreOf t x = h := by simp [scoreOf, hx]
        by_cases hcmp : s > h
        · rw [if_pos hcmp]
          rw [ih (some c) s (by intro hh; cases hh) (by intro z hz; cases hz; exact hsc)]
          exact chooseBetter_absorb_lt _ _ _ _ (by omega)
        · rw [if_neg hcmp]
          rw [ih (some x) h (by intro hh; cases hh) (by intro z hz; cases hz; exact hx)]
          exact chooseBetter_absorb_le _ _ _ _ (by omega)

theorem chooseBetter_none (f : LocalTrackData → Int) (r : Option LocalTrackData) :
    chooseBetter f none r = r := by
  cases r <;> rfl

/-- C4: `find_best_match` returns the first-encountered candidate among
those with the highest accumulated score (strict improvement only, so
ties keep the earlier candidate); it returns `none` exactly when no
candidate passes the artist gate; any returned candidate passed the gate,
has positive score, and its score is maximal among all gate-passing
candidates. -/
theorem matcher_selection_spec (t : TrackInfo) (cs : List LocalTrackData) :
    (find_best_match t cs = none ↔ ∀ c ∈ cs, candidateScore t c = none) ∧
    (∀ c, find_best_match t cs = some c →
      c ∈ cs ∧ ∃ s, candidateScore t c = some s ∧ 0 < s ∧
        ∀ d ∈ cs, ∀ s', candidateScore t d = some s' → s' ≤ s) ∧
    find_best_match t cs =
      selectFirstMax (scoreOf t) (cs.filter fun c => (candidateScore t c).isSome) := by
  have hmain : find_best_match t cs =
      selectFirstMax (scoreOf t) (cs.filter fun c => (candidateScore t c).isSome) := by
    unfold find_best_match
    by_cases hcs : cs.isEmpty
    · rw [if_pos hcs]
      cases cs with
      | nil => rfl
      | cons a l => simp at hcs
    · rw [if_neg hcs]
      rw [findBestAux_eq t cs none 0 (fun _ => rfl) (fun x hx => by cases hx)]
      exact chooseBetter_none _ _
  refine ⟨?_, ?_, hmain⟩
  · rw [hmain]
    constructor
    · intro h c hc
      by_contra hne
      have hso : (candidateScore t c).isSome := Option.ne_none_iff_isSome.mp hne
      have hcf : c ∈ cs.filter (fun c => (candidateScore t c).isSome) :=
        List.mem_filter.mpr ⟨hc, hso⟩
      have hnil : cs.filter (fun c => (candidateScore t c).isSome) ≠ [] := by
        intro hnil; rw [hnil] at hcf; simp at hcf
      have hS := (selectFirstMax_isSome (scoreOf t) _).mpr hnil
      rw [h] at hS
      simp at hS
    · intro h
      cases hr : selectFirstMax (scoreOf t)
          (cs.filter fun c => (candidateScore t c).isSome) with
      | none => rfl
      | some y =>
        exfalso
        have hmem := selectFirstMax_mem (scoreOf t) _ y hr
        have ⟨hys, hyso⟩ := List.mem_filter.mp hmem
        rw [h y hys] at hyso
        simp at hyso
  · intro c hc
    rw [hmain] at hc
    have hmem := selectFirstMax_mem (scoreOf t) _ c hc
    have ⟨hcs', hsome⟩ := List.mem_filter.mp hmem
    obtain ⟨s, hs⟩ := Option.isSome_iff_exists.mp hsome
    refine ⟨hcs', s, hs, ?_, ?_⟩
    · have := candidateScore_ge_30 t c s hs
      omega
    · intro d hd s' hs'
      have hdf : d ∈ cs.filter (fun c => (candidateScore t c).isSome) :=
        List.mem_filter.mpr ⟨hd, by simp [hs']⟩
      have hle := selectFirstMax_max (scoreOf t) _ c hc d hdf
      rw [show scoreOf t d = s' by simp [scoreOf, hs'],
        show scoreOf t c = s by simp [scoreOf, hs]] at hle
      exact hle

/-- Witness for C4: in the §8 low-score scenario (duration off by
10000 ms) the sole gate-passing candidate still wins with score 70. -/
theorem matcher_selection_spec_witness :
    find_best_match scenarioTrack70 [scenarioEntry] = some scenarioEntry ∧
    candidateScore scenarioTrack70 scenarioEntry = some 70 := by
  constructor
  · exact ((matcher_selection_spec scenarioTrack70 [scenarioEntry]).2.2).trans (by decide)
  · decide

/-- C5: the harmonic sorter partitions tracks into resolved
(`key ≥ 0 && tempo > 0`) and unresolved, preserving original relative
order within each partition (the two parts are the two order-preserving
`filter`s of the input); the output is the sorted resolved part followed
by the unresolved part in original order, the sorted part is a
permutation of the resolved part (membership unchanged), and every
element of it is resolved — so every resolved track precedes every
unresolved track in the output. -/
theorem harmonicSort_partition_spec (tracks : List TrackInfo) :
    harmonicSort tracks =
      (tracks.filter isResolved).mergeSort trackLe ++
        tracks.filter (fun t => !isResolved t) ∧
    ((tracks.filter isResolved).mergeSort trackLe).Perm
      (tracks.filter isResolved) ∧
    (∀ t ∈ (tracks.filter isResolved).mergeSort trackLe, isResolved t = true) ∧
    (∀ t ∈ tracks.filter (fun t => !isResolved t), isResolved t = false) := by
  refine ⟨?_, List.mergeSort_perm _ _, ?_, ?_⟩
  · unfold harmonicSort
    rw [List.partition_eq_filter_filter]
    rfl
  · intro t ht
    have : t ∈ tracks.filter isResolved := List.mem_mergeSort.mp ht
    exact (List.mem_filter.mp this).2
  · intro t ht
    have := (List.mem_filter.mp ht).2
    simpa using this

/-- Witness for C5 at a concrete two-track playlist (one resolved track
`wRes1`, one unresolved track `wUnres`). -/
theorem harmonicSort_partition_spec_witness :
    isResolved wRes1 = true ∧ isResolved wUnres = false := by
  constructor
  · refine (harmonicSort_partition_spec [wRes1, wUnres]).2.2.1 wRes1 ?_
    rw [show List.filter isResolved [wRes1, wUnres] = [wRes1] from by decide]
    simp
  · refine (harmonicSort_partition_spec [wRes1, wUnres]).2.2.2 wUnres ?_
    rw [show List.filter (fun t => !isResolved t) [wRes1, wUnres] = [wUnres] from by decide]
    simp

theorem isResolved_num (t : TrackInfo) (h : isResolved t = true) :
    ∃ q : ℚ, t.tempo = F32.num q ∧ 0 < q := by
  unfold isResolved F32.gtZero at h
  cases htempo : t.tempo with
  | nan => rw [htempo] at h; simp at h
  | num q =>
    rw [htempo] at h
    rw [Bool.and_eq_true, decide_eq_true_eq, decide_eq_true_eq] at h
    exact ⟨q, rfl, h.2⟩

theorem trackLe_eq_trackLeTotal (a b : TrackInfo) (qa qb : ℚ)
    (ha : a.tempo = F32.num qa) (hb : b.tempo = F32.num qb) :
    trackLe a b = trackLeTotal a b := by
  unfold trackLe trackLeTotal cmpTracks
  dsimp only
  rw [ha, hb]
  by_cases h1 : get_sort_weight a.key a.mode < get_sort_weight b.key b.mode
  · rw [if_pos h1]
    simp [Ordering.then, h1, toQ]
  · by_cases h2 : get_sort_weight a.key a.mode = get_sort_weight b.key b.mode
    · rw [if_neg h1, if_pos h2]
      dsimp only [Ordering.then, F32.pcmp, Option.getD, toQ]
      by_cases h3 : qa < qb
      · rw [if_pos h3]
        simp [h2, le_of_lt h3]
      · by_cases h4 : qa = qb
        · rw [if_neg h3, if_pos h4]
          simp [h2, le_of_eq h4]
        · rw [if_neg h3, if_neg h4]
          have : ¬qa ≤ qb := by
            intro hle
            exact h4 (le_antisymm hle (le_of_not_lt h3))
          simp [h1, this]
    · rw [if_neg h1, if_neg h2]
      simp [Ordering.then, h1, h2]

theorem trackLeTotal_trans (a b c : TrackInfo)
    (hab : trackLeTotal a b) (hbc : trackLeTotal b c) : trackLeTotal a c := by
  simp only [trackLeTotal, decide_eq_true_eq] at *
  rcases hab with h | ⟨h1, h2⟩ <;> rcases hbc with h' | ⟨h1', h2'⟩
  · exact Or.inl (lt_trans h h')
  · exact Or.inl (h1' ▸ h)
  · exact Or.inl (h1 ▸ h')
  · exact Or.inr ⟨h1.trans h1', le_trans h2 h2'⟩

theorem trackLeTotal_total (a b : TrackInfo) :
    trackLeTotal a b || trackLeTotal b a := by
  simp only [trackLeTotal, Bool.or_eq_true, decide_eq_true_eq]
  rcases lt_trichotomy (get_sort_weight a.key a.mode)
    (get_sort_weight b.key b.mode) with h | h | h
  · exact Or.inl (Or.inl h)
  · rcases le_total (toQ a.tempo) (toQ b.tempo) with h' | h'
    · exact Or.inl (Or.inr ⟨h, h'⟩)
    · exact Or.inr (Or.inr ⟨h.symm, h'⟩)
  · exact Or.inr (Or.inl h)

/-- C6: the resolved-track comparator orders by sort weight ascending,
then by tempo ascending, and an undefined (NaN) tempo comparison is
treated as equality rather than an error; the stable sort therefore
keeps the original relative order of any two resolved tracks with
identical weight and identical tempo. -/
theorem sort_comparator_stability (tracks : List TrackInfo) (a b : TrackInfo) :
    (get_sort_weight a.key a.mode < get_sort_weight b.key b.mode →
      cmpTracks a b = Ordering.lt) ∧
    (get_sort_weight a.key a.mode = get_sort_weight b.key b.mode →
      cmpTracks a b = (F32.pcmp a.tempo b.tempo).getD Ordering.eq) ∧
    (∀ qa qb : ℚ, a.tempo = F32.num qa → b.tempo = F32.num qb → qa < qb →
      get_sort_weight a.key a.mode = get_sort_weight b.key b.mode →
      cmpTracks a b = Ordering.lt) ∧
    (F32.pcmp a.tempo b.tempo = none →
      get_sort_weight a.key a.mode = get_sort_weight b.key b.mode →
      cmpTracks a b = Ordering.eq) ∧
    ([a, b].Sublist (tracks.filter isResolved) →
      get_sort_weight a.key a.mode = get_sort_weight b.key b.mode →
      a.tempo = b.tempo →
      [a, b].Sublist ((tracks.filter isResolved).mergeSort trackLe)) := by
  refine ⟨?_, ?_, ?_, ?_, ?_⟩
  · intro h
    unfold cmpTracks
    dsimp only
    rw [if_pos h]
    rfl
  · intro h
    unfold cmpTracks
    dsimp only
    rw [if_neg (by omega), if_pos h]
    rfl
  · intro qa qb ha hb hlt hw
    unfold cmpTracks
    dsimp only
    rw [if_neg (by omega), if_pos hw, ha, hb]
    dsimp only [F32.pcmp, Option.getD]
    rw [if_pos hlt]
    rfl
  · intro hn hw
    unfold cmpTracks
    dsimp only
    rw [if_neg (by omega), if_pos hw, hn]
    rfl
  · intro hsub hw ht
    have hra : isResolved a = true :=
      (List.mem_filter.mp (hsub.subset (by simp))).2
    have heq : ∀ x ∈ tracks.filter isResolved, ∀ y ∈ tracks.filter isResolved,
        trackLe x y = trackLeTotal x y := by
      intro x hx y hy
      obtain ⟨qx, hqx, _⟩ := isResolved_num x (List.mem_filter.mp hx).2
      obtain ⟨qy, hqy, _⟩ := isResolved_num y (List.mem_filter.mp hy).2
      exact trackLe_eq_trackLeTotal x y qx qy hqx hqy
    have hms : (tracks.filter isResolved).mergeSort trackLe =
        (tracks.filter isResolved).mergeSort trackLeTotal := by
      have hmap := @List.map_mergeSort TrackInfo TrackInfo trackLe trackLeTotal
        id (tracks.filter isResolved) heq
      simpa using hmap
    rw [hms]
    refine List.pair_sublist_mergeSort
      (fun x y z hxy hyz => trackLeTotal_trans x y z hxy hyz)
      (fun x y => trackLeTotal_total x y) ?_ hsub
    obtain ⟨qa, hqa, _⟩ := isResolved_num a hra
    simp only [trackLeTotal, decide_eq_true_eq]
    exact Or.inr ⟨hw, by rw [ht]⟩

/-- Witness for C6: two concrete resolved tracks with equal weight and
tempo stay in order through the sort of a concrete playlist. -/
theorem sort_comparator_stability_witness :
    [wRes1, wRes2].Sublist (([wRes1, wRes2, wUnres].filter isResolved).mergeSort trackLe) := by
  refine (sort_comparator_stability [wRes1, wRes2, wUnres] wRes1 wRes2).2.2.2.2 ?_ (by decide) (by decide)
  rw [show List.filter isResolved [wRes1, wRes2, wUnres] = [wRes1, wRes2] from by decide]

/-- C7: when a local match is found but the matched entry's Camelot key
fails conversion, the track is left entirely unchanged (so it remains
unresolved); and in every case the enrichment either leaves the track
unchanged or writes key, mode and tempo together from the same matched
entry whose conversion succeeded. -/
theorem enrich_error_unchanged (local_db : List (String × List LocalTrackData))
    (all_db_entries : List LocalTrackData) (track : TrackInfo) :
    (∀ m, enrichBestMatch local_db all_db_entries track = some m →
      camelot_to_spotify m.key_camelot = none →
      enrichTrack local_db all_db_entries track = track) ∧
    (enrichTrack local_db all_db_entries track = track ∨
      ∃ m pitch mode, enrichBestMatch local_db all_db_entries track = some m ∧
        camelot_to_spotify m.key_camelot = some (pitch, mode) ∧
        enrichTrack local_db all_db_entries track =
          { track with tempo := m.bpm, key := pitch, mode := mode }) := by
  constructor
  · intro m hm hc
    unfold enrichTrack
    rw [hm]
    dsimp only
    rw [hc]
  · unfold enrichTrack
    cases hm : enrichBestMatch local_db all_db_entries track with
    | none => exact Or.inl rfl
    | some m =>
      dsimp only
      cases hc : camelot_to_spotify m.key_camelot with
      | none => exact Or.inl rfl
      | some pm =>
        refine Or.inr ⟨m, pm.1, pm.2, rfl, ?_, ?_⟩
        · rw [hc]
        · rfl

/-- Witness for C7: a concrete track matched to an entry whose Camelot
key `"XX"` is invalid is returned unchanged. -/
theorem enrich_error_unchanged_witness :
    enrichTrack (buildDb [wBadKeyEntry]) [wBadKeyEntry] wTrackSong = wTrackSong :=
  (enrich_error_unchanged (buildDb [wBadKeyEntry]) [wBadKeyEntry] wTrackSong).1
    wBadKeyEntry (by decide) (by decide)

theorem lookupDb_cons (k0 : String) (v : List LocalTrackData)
    (rest : List (String × List LocalTrackData)) (k' : String) :
    lookupDb ((k0, v) :: rest) k' = if k0 = k' then some v else lookupDb rest k' := by
  by_cases h : k0 = k'
  · have hb : (k0 == k') = true := by simp [h]
    simp [lookupDb, List.find?, hb, h]
  · have hb : (k0 == k') = false := by simp [h]
    simp [lookupDb, List.find?, hb, h]

theorem lookupDb_dbInsert (db : List (String × List LocalTrackData))
    (k : String) (e : LocalTrackData) (k' : String) :
    lookupDb (dbInsert db k e) k' =
      if k' = k then some (((lookupDb db k').getD []) ++ [e])
      else lookupDb db k' := by
  induction db with
  | nil =>
    rw [show dbInsert [] k e = [(k, [e])] from rfl, lookupDb_cons]
    by_cases h : k' = k
    · rw [if_pos h.symm, if_pos h]
      rfl
    · rw [if_neg (fun hk => h hk.symm), if_neg h]
  | cons p rest ih =>
    obtain ⟨k0, v⟩ := p
    dsimp only [dbInsert]
    by_cases h0 : k0 = k
    · rw [if_pos h0]
      subst h0
      rw [lookupDb_cons, lookupDb_cons]
      by_cases h : k0 = k'
      · rw [if_pos h, if_pos h.symm, if_pos h]
        rfl
      · rw [if_neg h, if_neg (fun hk => h hk.symm), if_neg h]
    · rw [if_neg h0]
      rw [lookupDb_cons, lookupDb_cons]
      by_cases h : k0 = k'
      · rw [if_pos h, if_pos h]
        rw [if_neg (fun hk : k' = k => h0 (h.trans hk))]
      · rw [if_neg h, if_neg h, ih]

theorem lookupDb_foldl (es : List LocalTrackData) :
    ∀ (db : List (String × List LocalTrackData)) (k : String),
    lookupDb (es.foldl (fun db e => dbInsert db (normalize e.name) e) db) k =
      if lookupDb db k = none ∧ (es.filter fun e => normalize e.name == k) = []
      then none
      else some ((lookupDb db k).getD [] ++
        (es.filter fun e => normalize e.name == k)) := by
  induction es with
  | nil =>
    intro db k
    cases h : lookupDb db k with
    | none => simp [h]
    | some v => simp [h]
  | cons e es ih =>
    intro db k
    rw [List.foldl_cons, ih]
    rw [lookupDb_dbInsert db (normalize e.name) e k]
    by_cases hk : normalize e.name = k
    · have hkb : (normalize e.name == k) = true := by simp [hk]
      have hfe : (e :: es).filter (fun x => normalize x.name == k) =
          e :: es.filter (fun x => normalize x.name == k) := by
        simp [List.filter, hkb]
      rw [hfe, if_pos hk.symm]
      cases hdb : lookupDb db k with
      | none => simp
      | some v => simp
    · have hkb : (normalize e.name == k) = false := by simp [hk]
      have hfe : (e :: es).filter (fun x => normalize x.name == k) =
          es.filter (fun x => normalize x.name == k) := by
        simp [List.filter, hkb]
      rw [hfe, if_neg (fun hkk : k = normalize e.name => hk hkk.symm)]

/-- C8: enrichment tries sources in fixed order — a direct lookup of the
bucket of entries whose normalized title equals the track's normalized
title (`buildDb` buckets exactly those entries, in input order), and a
fuzzy fallback over the whole flattened entry list filtered by mutual
title containment AND mutual artist containment, used only when the
direct lookup produced no match. -/
theorem enrichment_source_order (local_db : List (String × List LocalTrackData))
    (all_db_entries : List LocalTrackData) (track : TrackInfo) :
    (∀ m, (match lookupDb local_db (normalize track.name) with
            | some candidates => find_best_match track candidates
            | none => none) = some m →
      enrichBestMatch local_db all_db_entries track = some m) ∧
    ((match lookupDb local_db (normalize track.name) with
       | some candidates => find_best_match track candidates
       | none => none) = none →
      enrichBestMatch local_db all_db_entries track =
        find_best_match track (all_db_entries.filter fun e =>
          (strContains (normalize e.name) (normalize track.name) ||
            strContains (normalize track.name) (normalize e.name)) &&
          (strContains (normalize e.artist) (normalize track.artist) ||
            strContains (normalize track.artist) (normalize e.artist)))) ∧
    (∀ (entries : List LocalTrackData) (k : String),
      lookupDb (buildDb entries) k =
        if (entries.filter fun e => normalize e.name == k) = [] then none
        else some (entries.filter fun e => normalize e.name == k)) := by
  refine ⟨?_, ?_, ?_⟩
  · intro m hm
    unfold enrichBestMatch
    dsimp only
    rw [hm]
  · intro hm
    unfold enrichBestMatch
    dsimp only
    rw [hm]
    rfl
  · intro entries k
    unfold buildDb
    rw [lookupDb_foldl]
    simp [lookupDb, List.find?]

/-- Witness for C8: the direct lookup finds `wEntry8` for `wTrackSong`
(so the fuzzy fallback is skipped), while for `wTrackSon` (title `"son"`,
no exact bucket) enrichment equals the fuzzy fallback result. -/
theorem enrichment_source_order_witness :
    enrichBestMatch (buildDb [wEntry8]) [wEntry8] wTrackSong = some wEntry8 ∧
    enrichBestMatch (buildDb [wEntry8]) [wEntry8] wTrackSon =
      find_best_match wTrackSon ([wEntry8].filter fun e =>
        (strContains (normalize e.name) (normalize wTrackSon.name) ||
          strContains (normalize wTrackSon.name) (normalize e.name)) &&
        (strContains (normalize e.artist) (normalize wTrackSon.artist) ||
          strContains (normalize wTrackSon.artist) (normalize e.artist))) := by
  constructor
  · exact (enrichment_source_order (buildDb [wEntry8]) [wEntry8] wTrackSong).1
      wEntry8 (by decide)
  · exact (enrichment_source_order (buildDb [wEntry8]) [wEntry8] wTrackSon).2.1
      (by decide)

/-- C9: the enrichment outcome is not a function of the reference data as
a set — it depends on the iteration order of the flattened entry list
(which the Rust `HashMap`'s unspecified value order determines anew each
run): with the same buckets and the same track, the two permuted
flattenings `[wFuzzyA, wFuzzyB]` and `[wFuzzyB, wFuzzyA]` are tied in
score, the matcher keeps the first encountered, and the enriched tracks
differ in key and tempo. -/
theorem enrichment_order_sensitive :
    List.Perm [wFuzzyA, wFuzzyB] [wFuzzyB, wFuzzyA] ∧
    enrichTrack (buildDb [wFuzzyA, wFuzzyB]) [wFuzzyA, wFuzzyB] wTrackSong ≠
      enrichTrack (buildDb [wFuzzyA, wFuzzyB]) [wFuzzyB, wFuzzyA] wTrackSong := by
  constructor
  · exact List.Perm.swap _ _ _
  · decide

/-- C10 counterexample: the claim asserts every candidate passes the
artist gate *with the +80 substring bonus* when the track's artist
normalizes to the empty string; but a candidate whose artist also
normalizes to `""` takes the exact-equality branch and scores the artist
part as +100, not +80 (here: no duration, different title, so the whole
score equals the artist part). -/
theorem empty_artist_gate_cex :
    normalize wEmptyArtistTrack.artist = "" ∧
    candidateScore wEmptyArtistTrack wEmptyArtistEntry = some 100 ∧
    candidateScore wEmptyArtistTrack wEmptyArtistEntry ≠ some 80 := by
  refine ⟨by decide, by decide, by decide⟩

theorem strContains_empty_needle (s : String) : strContains s "" = true := by
  unfold strContains
  rw [List.any_eq_true]
  exact ⟨0, by simp [List.mem_range], by simp [List.isPrefixOf]⟩

/-- C10 (amended): if a track's artist normalizes to the empty string,
every candidate passes the artist gate — with +100 when the candidate's
artist also normalizes to the empty string (exact equality), and with
the +80 substring bonus otherwise (the empty string is a substring of
every string) — so such a track can be matched to a reference entry by
any artist whatsoever. -/
theorem empty_artist_gate (t : TrackInfo) (c : LocalTrackData)
    (h : normalize t.artist = "") :
    candidateScore t c =
      some ((if normalize c.artist = "" then 100 else 80) +
        (match c.duration_ms with
         | some d =>
           if ((d : Int) - (t.duration_ms : Int)).natAbs < 5000 then 50 else -50
         | none => 0) +
        (if normalize c.name = normalize t.name then 20 else 0)) := by
  unfold candidateScore
  dsimp only
  rw [h]
  by_cases hc : normalize c.artist = ""
  · rw [if_pos hc, if_pos hc]
    dsimp only [Option.map]
    cases c.duration_ms <;> split_ifs <;> simp <;> omega
  · rw [if_neg hc, if_neg hc]
    rw [if_pos (by rw [strContains_empty_needle]; simp)]
    dsimp only [Option.map]
    cases c.duration_ms <;> split_ifs <;> simp <;> omega

/-- Witness for C10: a candidate with the ordinary artist `"q"` against
the whitespace-artist track passes the gate with exactly the +80 bonus
(no duration, different title). -/
theorem empty_artist_gate_witness :
    candidateScore wEmptyArtistTrack wOtherArtistEntry = some 80 :=
  (empty_artist_gate wEmptyArtistTrack wOtherArtistEntry (by decide)).trans (by decide)

/-- Witness for C2: at the concrete code `"8A"` the conversion succeeds
(digits parse to 8, in range) and the mode is Minor because the cleaned
string contains `'A'`. -/
theorem camelot_failure_characterization_witness :
    (camelot_to_spotify "8A").isSome = true ∧
    ((trimChars ("8A" : String).data).map Char.toUpper).contains 'A' = true :=
  ⟨(camelot_failure_characterization.2.1 "8A").mpr ⟨8, by decide, by decide, by decide⟩,
   (camelot_failure_characterization.2.2 "8A" 9 Modality.Minor (by decide)).mp rfl⟩

/-- C3: `find_best_match` scores each candidate independently: +100 for
exact normalized-artist equality, +80 for substring containment either
direction, otherwise the candidate is skipped; then ±50 by duration
(only when the candidate has a known duration, threshold 5000 ms), then
+20 for exact normalized-title equality (`candidateScore` equals the
spec's scoring rule); in the §8 scenario the entry is returned with
score 170. -/
theorem matcher_scoring_spec :
    (∀ (t : TrackInfo) (c : LocalTrackData),
      candidateScore t c = specCandidateScore t c) ∧
    find_best_match scenarioTrack [scenarioEntry] = some scenarioEntry ∧
    candidateScore scenarioTrack scenarioEntry = some 170 := by
  refine ⟨?_, by decide, by decide⟩
  intro t c
  unfold candidateScore specCandidateScore
  dsimp only
  cases c.duration_ms <;> split_ifs <;> simp <;> omega

end MixSorter
